import Mathlib

/-!
Shallow embedding of the log ingestion and analytics engine of the
Power Automate Log Viewer (TypeScript sources: src/types.ts and src/utils.ts,
the FileUpload / Dashboard / Overview components, src/components/LogTable.tsx
and src/components/LogCharts.tsx).

JavaScript `new Date(s).getTime()` is modelled by an arbitrary total function
`dateMs : String → Int` (epoch milliseconds); theorems quantify over every
such function.  JavaScript `Array.prototype.sort` with the pure comparator
`(a, b) => dateMs(a) - dateMs(b)` is modelled by a comparison sort (`sortLe`)
over the boolean relation `dateMs a ≤ dateMs b`; the claims under scrutiny
do not depend on the order of timestamp ties.  Locale-formatted display
labels (`toLocaleString`) are presentation-only and are not modelled.
-/

namespace PadLogViewer

/-- Performance counters (src/types.ts, interface PerfCounters); only the
fields read by the charts are modelled, each optional as in the source. -/
structure PerfCounters where
  totalCpuUsagePercent : Option Int := none
  processCpuUsagePercent : Option Int := none
  availableMemoryMB : Option Int := none
  processorQueueLength : Option Int := none
  deriving DecidableEq

/-- Machine info (src/types.ts, interface MachineInfo); only the fields read
by the charts are modelled. -/
structure MachineInfo where
  physicalFreeMemoryMB : Option Int := none
  cpuLoad : Option Int := none
  deriving DecidableEq

/-- Process info (src/types.ts, interface EventData.processInfo); only the
field read by the charts is modelled. -/
structure ProcessInfo where
  cpuLoad : Option Int := none
  deriving DecidableEq

/-- Nested event data (src/types.ts, interface EventData). -/
structure EventData where
  perfCounters : Option PerfCounters := none
  machineInfo : Option MachineInfo := none
  processInfo : Option ProcessInfo := none
  deriving DecidableEq

/-- A validated log record (src/types.ts, interface LogEntry).  The fields the
engine reads are modelled; the required-by-schema fields are plain strings,
the optional ones are options. -/
structure LogEntry where
  component : String
  traceLevel : String
  eventTimestamp : String
  message : String
  operationName : Option String := none
  eventData : Option EventData := none
  deriving DecidableEq

/-- A decoded-but-unvalidated JSON record, as produced by `JSON.parse` on one
line before the schema gate of `parseLogFile` (src/utils.ts).  The three
gate-checked fields may be absent (`none`) or present with any string value. -/
structure RawRecord where
  eventTimestamp : Option String := none
  component : Option String := none
  traceLevel : Option String := none
  message : String := ""
  operationName : Option String := none
  eventData : Option EventData := none
  deriving DecidableEq

/-- One trimmed input line as seen by `parseLogFile` (src/utils.ts): it is
blank, or `JSON.parse` throws on it, or it decodes to a record. -/
inductive Line where
  | blank : Line
  | malformed : Line
  | record : RawRecord → Line
  deriving DecidableEq

/-- Declarative filter (src/types.ts, interface LogFilter). -/
structure LogFilter where
  search : String
  level : String
  component : String
  deriving DecidableEq

/-- Zoom window (Dashboard state `timeRange`); `stop` models the field named
`end` in the source, which is a reserved word here. -/
structure TimeRange where
  start : Int
  stop : Int
  deriving DecidableEq

/-- The published dataset: merged entries plus display name (the arguments of
`onDataLoaded` in FileUpload). -/
structure Dataset where
  logs : List LogEntry
  name : String
  deriving DecidableEq

/-- One input source: file name plus its content split into trimmed lines. -/
structure SourceFile where
  name : String
  content : List Line
  deriving DecidableEq

/-! ## Comparison sort

`Array.prototype.sort` with a pure comparator is modelled by insertion sort
over a boolean "less or equal" test.  Structural recursion keeps every use
kernel-reducible for concrete witnesses. -/

/-- Insert `x` into `l` before the first element `y` with `le x y`. -/
def insertLe (le : α → α → Bool) (x : α) : List α → List α
  | [] => [x]
  | y :: ys => if le x y then x :: y :: ys else y :: insertLe le x ys

/-- Insertion sort by the boolean comparator `le`. -/
def sortLe (le : α → α → Bool) : List α → List α
  | [] => []
  | x :: xs => insertLe le x (sortLe le xs)

theorem perm_insertLe (le : α → α → Bool) (x : α) :
    ∀ l : List α, List.Perm (insertLe le x l) (x :: l) := by
  intro l
  induction l with
  | nil => simp [insertLe]
  | cons y ys ih =>
      by_cases h : le x y
      · simp [insertLe, h]
      · simp only [insertLe, h, if_neg, Bool.not_eq_true, if_false]
        exact ((ih.cons y).trans (List.Perm.swap x y ys))

theorem perm_sortLe (le : α → α → Bool) :
    ∀ l : List α, List.Perm (sortLe le l) l := by
  intro l
  induction l with
  | nil => simp [sortLe]
  | cons x xs ih => exact (perm_insertLe le x (sortLe le xs)).trans (ih.cons x)

theorem mem_sortLe (le : α → α → Bool) (a : α) (l : List α) :
    a ∈ sortLe le l ↔ a ∈ l :=
  (perm_sortLe le l).mem_iff

theorem pairwise_insertLe (le : α → α → Bool)
    (htr : ∀ a b c, le a b = true → le b c = true → le a c = true)
    (hto : ∀ a b, le a b = true ∨ le b a = true) (x : α) :
    ∀ l : List α, l.Pairwise (fun a b => le a b = true) →
      (insertLe le x l).Pairwise (fun a b => le a b = true) := by
  intro l
  induction l with
  | nil => simp [insertLe]
  | cons y ys ih =>
      intro hp
      rw [List.pairwise_cons] at hp
      obtain ⟨hy, hys⟩ := hp
      by_cases h : le x y
      · simp only [insertLe, h, if_true]
        refine List.Pairwise.cons ?_ (List.Pairwise.cons hy hys)
        intro z hz
        rw [List.mem_cons] at hz
        rcases hz with hz | hz
        · subst hz; exact h
        · exact htr x y z h (hy z hz)
      · simp only [insertLe, h, Bool.not_eq_true, if_false]
        refine List.Pairwise.cons ?_ (ih hys)
        intro z hz
        rw [(perm_insertLe le x ys).mem_iff, List.mem_cons] at hz
        rcases hz with hz | hz
        · rcases hto x y with hxy | hyx
          · exact absurd hxy (by simpa using h)
          · rw [hz]; exact hyx
        · exact hy z hz

theorem pairwise_sortLe (le : α → α → Bool)
    (htr : ∀ a b c, le a b = true → le b c = true → le a c = true)
    (hto : ∀ a b, le a b = true ∨ le b a = true) :
    ∀ l : List α, (sortLe le l).Pairwise (fun a b => le a b = true) := by
  intro l
  induction l with
  | nil => simp [sortLe]
  | cons x xs ih => exact pairwise_insertLe le htr hto x (sortLe le xs) ih

/-! ## Record Parser and File Ingestor (src/utils.ts, parseLogFile) -/

/-- JavaScript truthiness of a possibly-absent string field: truthy exactly
when the field is present with a non-empty value (the gate
`parsed.eventTimestamp && parsed.component && parsed.traceLevel`). -/
def truthyStr : Option String → Bool
  | none => false
  | some s => !(s == "")

/-- An accepted record is pushed as-is; on the accepted path the three gate
fields are present, so the defaults never fire. -/
def rawToEntry (r : RawRecord) : LogEntry :=
  { component := r.component.getD ""
    traceLevel := r.traceLevel.getD ""
    eventTimestamp := r.eventTimestamp.getD ""
    message := r.message
    operationName := r.operationName
    eventData := r.eventData }

/-- One iteration of the line loop of `parseLogFile`: blank lines are skipped,
`JSON.parse` failures are silently skipped, decoded records pass only if
`eventTimestamp`, `component` and `traceLevel` are all truthy. -/
def parseLine : Line → Option LogEntry
  | Line.blank => none
  | Line.malformed => none
  | Line.record r =>
      if truthyStr r.eventTimestamp && truthyStr r.component && truthyStr r.traceLevel
      then some (rawToEntry r) else none

/-- `validLogs.sort((a, b) => new Date(a.eventTimestamp).getTime() - new
Date(b.eventTimestamp).getTime())`. -/
def sortByTs (dateMs : String → Int) (l : List LogEntry) : List LogEntry :=
  sortLe (fun a b => decide (dateMs a.eventTimestamp ≤ dateMs b.eventTimestamp)) l

/-- `parseLogFile` (src/utils.ts): gate every line, then sort the accepted
records by timestamp. -/
def parseLogFile (dateMs : String → Int) (content : List Line) : List LogEntry :=
  sortByTs dateMs (content.filterMap parseLine)

/-! ## Dataset Merger (FileUpload.tsx, processFiles) -/

/-- Outcome of one `processFiles` run: `silent` is the early `return` taken
when zero files are supplied (no error set, no dataset published),
`noValidRecords` is `setError("No valid Power Automate Desktop logs found…")`,
and `loaded` is `onDataLoaded(allLogs, datasetName)`. -/
inductive ProcessResult where
  | silent : ProcessResult
  | noValidRecords : ProcessResult
  | loaded : Dataset → ProcessResult
  deriving DecidableEq

/-- `results`: each file is parsed independently, keeping its name. -/
def ingestResults (dateMs : String → Int) (files : List SourceFile) :
    List (String × List LogEntry) :=
  files.map (fun f => (f.name, parseLogFile dateMs f.content))

/-- `validFileResults = results.filter(res => res.logs.length > 0)`. -/
def contributing (dateMs : String → Int) (files : List SourceFile) :
    List (String × List LogEntry) :=
  (ingestResults dateMs files).filter (fun r => decide (0 < r.2.length))

/-- `flatMap` over the per-file results (`allLogs`). -/
def catLogs : List (String × List LogEntry) → List LogEntry
  | [] => []
  | r :: rs => r.2 ++ catLogs rs

/-- `datasetName`: the single contributing file's name, else
`` `${validFileResults.length} Log Files Merged` ``. -/
def datasetNameOf (dateMs : String → Int) (files : List SourceFile) : String :=
  if (contributing dateMs files).length = 1 then
    ((contributing dateMs files).head?.map Prod.fst).getD ""
  else
    toString (contributing dateMs files).length ++ " Log Files Merged"

/-- `processFiles` (FileUpload.tsx): early-return on zero files, report when
no file yields a valid record, otherwise sort the concatenation and publish
the named dataset. -/
def processFiles (dateMs : String → Int) (files : List SourceFile) : ProcessResult :=
  if files.length = 0 then ProcessResult.silent
  else if (catLogs (contributing dateMs files)).length = 0 then
    ProcessResult.noValidRecords
  else
    ProcessResult.loaded
      { logs := sortByTs dateMs (catLogs (contributing dateMs files))
        name := datasetNameOf dateMs files }

/-! ## Supporting lemmas for the parser and merger -/

theorem parseLine_eq_some (line : Line) (e : LogEntry) :
    parseLine line = some e ↔
      ∃ r : RawRecord, line = Line.record r ∧ truthyStr r.eventTimestamp = true ∧
        truthyStr r.component = true ∧ truthyStr r.traceLevel = true ∧
        e = rawToEntry r := by
  cases line with
  | blank => simp [parseLine]
  | malformed => simp [parseLine]
  | record r =>
      constructor
      · intro hp
        simp only [parseLine] at hp
        by_cases hg :
            (truthyStr r.eventTimestamp && truthyStr r.component &&
              truthyStr r.traceLevel) = true
        · rw [if_pos hg] at hp
          have hg' := hg
          simp only [Bool.and_eq_true] at hg'
          exact ⟨r, rfl, hg'.1.1, hg'.1.2, hg'.2, (Option.some.injEq _ _).mp hp.symm⟩
        · rw [if_neg hg] at hp
          cases hp
      · rintro ⟨r', hr', h1, h2, h3, he⟩
        cases hr'
        simp [parseLine, h1, h2, h3, he]

theorem chain_sortByTs (dateMs : String → Int) (l : List LogEntry) :
    List.Chain' (fun a b => dateMs a.eventTimestamp ≤ dateMs b.eventTimestamp)
      (sortByTs dateMs l) := by
  have hp := pairwise_sortLe
      (fun a b : LogEntry => decide (dateMs a.eventTimestamp ≤ dateMs b.eventTimestamp))
      (fun a b c hab hbc =>
        decide_eq_true (le_trans (of_decide_eq_true hab) (of_decide_eq_true hbc)))
      (fun a b => by
        rcases le_total (dateMs a.eventTimestamp) (dateMs b.eventTimestamp) with h | h
        · exact Or.inl (decide_eq_true h)
        · exact Or.inr (decide_eq_true h)) l
  exact (hp.imp (fun h => of_decide_eq_true h)).chain'

theorem mem_sortByTs (dateMs : String → Int) (e : LogEntry) (l : List LogEntry) :
    e ∈ sortByTs dateMs l ↔ e ∈ l :=
  mem_sortLe _ e l

theorem catLogs_append (xs ys : List (String × List LogEntry)) :
    catLogs (xs ++ ys) = catLogs xs ++ catLogs ys := by
  induction xs with
  | nil => simp [catLogs]
  | cons r rs ih => simp [catLogs, ih]

theorem processFiles_loaded_logs (dateMs : String → Int) (files : List SourceFile)
    (ds : Dataset) (h : processFiles dateMs files = ProcessResult.loaded ds) :
    files.length ≠ 0 ∧ (catLogs (contributing dateMs files)).length ≠ 0 ∧
      ds = { logs := sortByTs dateMs (catLogs (contributing dateMs files))
             name := datasetNameOf dateMs files } := by
  by_cases h0 : files.length = 0
  · rw [processFiles, if_pos h0] at h
    cases h
  · by_cases h1 : (catLogs (contributing dateMs files)).length = 0
    · rw [processFiles, if_neg h0, if_pos h1] at h
      cases h
    · rw [processFiles, if_neg h0, if_neg h1] at h
      have := (ProcessResult.loaded.injEq _ _).mp h
      exact ⟨h0, h1, this.symm⟩

/-- C1: for every list of input sources, the merged dataset published by
ingestion is sorted non-decreasingly in the datetime value (epoch
milliseconds) of `eventTimestamp`: every pair of consecutive entries is
ordered. -/
theorem ingest_sorted_by_timestamp (dateMs : String → Int) (files : List SourceFile)
    (ds : Dataset) (h : processFiles dateMs files = ProcessResult.loaded ds) :
    List.Chain' (fun a b => dateMs a.eventTimestamp ≤ dateMs b.eventTimestamp)
      ds.logs := by
  obtain ⟨-, -, hds⟩ := processFiles_loaded_logs dateMs files ds h
  rw [hds]
  exact chain_sortByTs dateMs _

/-- Witness for C1 at a concrete two-file input. -/
theorem ingest_sorted_by_timestamp_inst :
    List.Chain'
      (fun a b => (fun s : String => (s.length : Int)) a.eventTimestamp ≤
        (fun s : String => (s.length : Int)) b.eventTimestamp)
      (Dataset.logs
        { logs := [{ component := "Engine", traceLevel := "Info",
                     eventTimestamp := "t1", message := "m1" },
                   { component := "UIFlowService", traceLevel := "Error",
                     eventTimestamp := "t222", message := "m2" }]
          name := "a.log" }) :=
  ingest_sorted_by_timestamp (fun s : String => (s.length : Int))
    [{ name := "a.log"
       content := [Line.record { eventTimestamp := some "t222",
                                 component := some "UIFlowService",
                                 traceLevel := some "Error", message := "m2" },
                   Line.malformed,
                   Line.record { eventTimestamp := some "t1",
                                 component := some "Engine",
                                 traceLevel := some "Info", message := "m1" }] }]
    _ (by decide)

/-- C2: an input line yields an entry in the parser's output if and only if
it decodes as a JSON record whose `eventTimestamp`, `component` and
`traceLevel` are all present and non-empty; blank, malformed and
schema-incomplete lines are silently skipped, regardless of the contents of
any other fields. -/
theorem record_parser_gate (dateMs : String → Int) (content : List Line)
    (e : LogEntry) :
    e ∈ parseLogFile dateMs content ↔
      ∃ r : RawRecord, Line.record r ∈ content ∧ truthyStr r.eventTimestamp = true ∧
        truthyStr r.component = true ∧ truthyStr r.traceLevel = true ∧
        e = rawToEntry r := by
  rw [parseLogFile, mem_sortByTs, List.mem_filterMap]
  constructor
  · rintro ⟨line, hline, hparse⟩
    obtain ⟨r, hr, h1, h2, h3, he⟩ := (parseLine_eq_some line e).mp hparse
    exact ⟨r, hr ▸ hline, h1, h2, h3, he⟩
  · rintro ⟨r, hr, h1, h2, h3, he⟩
    exact ⟨Line.record r, hr,
      (parseLine_eq_some (Line.record r) e).mpr ⟨r, rfl, h1, h2, h3, he⟩⟩

theorem mem_catLogs (a : LogEntry) :
    ∀ rs : List (String × List LogEntry), a ∈ catLogs rs ↔ ∃ r ∈ rs, a ∈ r.2 := by
  intro rs
  induction rs with
  | nil => simp [catLogs]
  | cons r rs ih => simp [catLogs, ih, List.mem_append]

theorem catLogs_contributing_eq_nil (dateMs : String → Int) (files : List SourceFile) :
    catLogs (contributing dateMs files) = [] ↔
      ∀ f ∈ files, parseLogFile dateMs f.content = [] := by
  constructor
  · intro hnil f hf
    by_contra hne
    obtain ⟨a, ha⟩ := List.exists_mem_of_ne_nil _ hne
    have hrmem : (f.name, parseLogFile dateMs f.content) ∈ contributing dateMs files := by
      rw [contributing, List.mem_filter]
      refine ⟨List.mem_map_of_mem _ hf, ?_⟩
      simp only [decide_eq_true_eq]
      exact List.length_pos.mpr hne
    have : a ∈ catLogs (contributing dateMs files) :=
      (mem_catLogs a _).mpr ⟨(f.name, parseLogFile dateMs f.content), hrmem, ha⟩
    rw [hnil] at this
    cases this
  · intro hall
    have hc : contributing dateMs files = [] := by
      rw [contributing, List.filter_eq_nil_iff]
      intro r hr
      rw [ingestResults, List.mem_map] at hr
      obtain ⟨f, hf, hfr⟩ := hr
      simp only [decide_eq_true_eq, not_lt]
      rw [← hfr]
      simp [hall f hf]
    rw [hc]
    rfl

/-- C5 counterexample: with zero sources, `processFiles` takes the early
`return` and reports nothing, instead of the claimed "no valid records
found" condition. -/
theorem empty_ingestion_report_cex :
    processFiles (fun s : String => (s.length : Int)) [] = ProcessResult.silent ∧
      ProcessResult.silent ≠ ProcessResult.noValidRecords := by
  constructor
  · rfl
  · decide

/-- C5 (amended): when at least one source is provided and every source
yields zero valid entries, ingestion reports "no valid records found" and
publishes no dataset; when at least one valid entry exists a dataset is
published with no error; with zero sources nothing is reported and nothing
is published (early return). -/
theorem empty_ingestion_reporting (dateMs : String → Int) (files : List SourceFile) :
    (files ≠ [] →
        ((∀ f ∈ files, parseLogFile dateMs f.content = []) ↔
          processFiles dateMs files = ProcessResult.noValidRecords))
    ∧ ((∃ f ∈ files, parseLogFile dateMs f.content ≠ []) →
        ∃ ds : Dataset, processFiles dateMs files = ProcessResult.loaded ds)
    ∧ processFiles dateMs [] = ProcessResult.silent := by
  refine ⟨?_, ?_, rfl⟩
  · intro hne
    have h0 : files.length ≠ 0 := by
      simpa [List.length_eq_zero] using hne
    constructor
    · intro hall
      have hnil : (catLogs (contributing dateMs files)).length = 0 := by
        rw [(catLogs_contributing_eq_nil dateMs files).mpr hall]
        rfl
      rw [processFiles, if_neg h0, if_pos hnil]
    · intro hres
      intro f hf
      by_cases h1 : (catLogs (contributing dateMs files)).length = 0
      · have := (catLogs_contributing_eq_nil dateMs files).mp
          (List.length_eq_zero.mp h1)
        exact this f hf
      · rw [processFiles, if_neg h0, if_neg h1] at hres
        cases hres
  · rintro ⟨f, hf, hne⟩
    have h0 : files.length ≠ 0 := by
      intro h
      rw [List.length_eq_zero] at h
      subst h
      cases hf
    have h1 : (catLogs (contributing dateMs files)).length ≠ 0 := by
      intro h
      exact hne ((catLogs_contributing_eq_nil dateMs files).mp
        (List.length_eq_zero.mp h) f hf)
    exact ⟨_, by rw [processFiles, if_neg h0, if_neg h1]⟩

/-- Witness for C5 at a concrete input: one all-malformed source is reported
as "no valid records found". -/
theorem empty_ingestion_reporting_inst :
    processFiles (fun s : String => (s.length : Int))
        [{ name := "b.log", content := [Line.malformed, Line.blank] }] =
      ProcessResult.noValidRecords :=
  ((empty_ingestion_reporting (fun s : String => (s.length : Int))
      [{ name := "b.log", content := [Line.malformed, Line.blank] }]).1
    (by decide)).mp (by decide)

theorem contributing_append_nil (dateMs : String → Int) (files : List SourceFile)
    (g : SourceFile) (hg : parseLogFile dateMs g.content = []) :
    contributing dateMs (files ++ [g]) = contributing dateMs files := by
  rw [contributing, ingestResults, List.map_append, List.filter_append]
  simp [hg, contributing, ingestResults]

/-- C9: when a dataset is published, its name is the single contributing
source's identifier if exactly one source contributed at least one valid
entry, else `"<N> Log Files Merged"` with N the number of contributing
sources; appending a source with zero valid entries changes neither the
dataset nor its name. -/
theorem dataset_naming_contributing (dateMs : String → Int) (files : List SourceFile)
    (ds : Dataset) (h : processFiles dateMs files = ProcessResult.loaded ds) :
    ((contributing dateMs files).length = 1 →
        (contributing dateMs files).head?.map Prod.fst = some ds.name)
    ∧ ((contributing dateMs files).length ≠ 1 →
        ds.name = toString (contributing dateMs files).length ++ " Log Files Merged")
    ∧ ∀ g : SourceFile, parseLogFile dateMs g.content = [] →
        processFiles dateMs (files ++ [g]) = ProcessResult.loaded ds := by
  obtain ⟨h0, h1, hds⟩ := processFiles_loaded_logs dateMs files ds h
  refine ⟨?_, ?_, ?_⟩
  · intro hone
    obtain ⟨r, hr⟩ := List.length_eq_one.mp hone
    rw [hds]
    simp [datasetNameOf, hone, hr]
  · intro hnot
    rw [hds]
    simp [datasetNameOf, hnot]
  · intro g hg
    have hc := contributing_append_nil dateMs files g hg
    have h0' : (files ++ [g]).length ≠ 0 := by
      simp [List.length_append]
    rw [processFiles, if_neg h0', hc, if_neg h1, ← h]
    rw [processFiles, if_neg h0, if_neg h1]
    simp [datasetNameOf, hc]

/-- Witness for C9: two contributing sources name the dataset
"2 Log Files Merged". -/
theorem dataset_naming_contributing_inst :
    Dataset.name
        { logs := [{ component := "Engine", traceLevel := "Info",
                     eventTimestamp := "t1", message := "m1" },
                   { component := "UIFlowService", traceLevel := "Error",
                     eventTimestamp := "t22", message := "m2" }]
          name := "2 Log Files Merged" } =
      toString
          (contributing (fun s : String => (s.length : Int))
            [{ name := "a.log"
               content := [Line.record { eventTimestamp := some "t1",
                                         component := some "Engine",
                                         traceLevel := some "Info",
                                         message := "m1" }] },
             { name := "b.log"
               content := [Line.record { eventTimestamp := some "t22",
                                         component := some "UIFlowService",
                                         traceLevel := some "Error",
                                         message := "m2" }] }]).length
        ++ " Log Files Merged" :=
  (dataset_naming_contributing (fun s : String => (s.length : Int))
      [{ name := "a.log"
         content := [Line.record { eventTimestamp := some "t1",
                                   component := some "Engine",
                                   traceLevel := some "Info",
                                   message := "m1" }] },
       { name := "b.log"
         content := [Line.record { eventTimestamp := some "t22",
                                   component := some "UIFlowService",
                                   traceLevel := some "Error",
                                   message := "m2" }] }]
      _ (by decide)).2.1 (by decide)

/-! ## Filter Engine (LogTable.tsx, filteredLogs) and time-range pre-filter
(Dashboard.tsx, filteredLogs) -/

/-- Boolean test: the first list occurs at the head of the second. -/
def subAt : List Char → List Char → Bool
  | [], _ => true
  | _ :: _, [] => false
  | a :: as, b :: bs => a == b && subAt as bs

/-- Boolean test: the first list occurs contiguously inside the second
(JavaScript `String.prototype.includes`). -/
def hasSub : List Char → List Char → Bool
  | n, [] => subAt n []
  | n, b :: bs => subAt n (b :: bs) || hasSub n bs

/-- `hay.toLowerCase().includes(needle.toLowerCase())`. -/
def containsCI (needle hay : String) : Bool :=
  hasSub needle.toLower.toList hay.toLower.toList

/-- The predicate of `filteredLogs` in LogTable.tsx: conjunction of the
search, level and component tests, each vacuous on the empty string; the
search matches case-insensitively in `message` or in the optional
`operationName` (optional chaining yields false when absent). -/
def matchesFilter (f : LogFilter) (l : LogEntry) : Bool :=
  ((f.search == "") || containsCI f.search l.message ||
      (l.operationName.map (fun op => containsCI f.search op)).getD false)
    && ((f.level == "") || (l.traceLevel == f.level))
    && ((f.component == "") || (l.component == f.component))

/-- `filteredLogs` (LogTable.tsx): keep exactly the matching entries. -/
def filteredLogs (logs : List LogEntry) (f : LogFilter) : List LogEntry :=
  logs.filter (matchesFilter f)

/-- `filteredLogs` (Dashboard.tsx): the time-range pre-filter applied to the
merged dataset; `none` is the identity, otherwise keep entries with
timestamp in `[start, stop]`, both ends inclusive. -/
def dashFiltered (dateMs : String → Int) (logs : List LogEntry) :
    Option TimeRange → List LogEntry
  | none => logs
  | some tr =>
      logs.filter (fun l =>
        decide (tr.start ≤ dateMs l.eventTimestamp) &&
          decide (dateMs l.eventTimestamp ≤ tr.stop))

theorem matchesFilter_eq_true (f : LogFilter) (e : LogEntry) :
    matchesFilter f e = true ↔
      (f.search = "" ∨ containsCI f.search e.message = true ∨
        ∃ op : String, e.operationName = some op ∧ containsCI f.search op = true)
      ∧ (f.level = "" ∨ e.traceLevel = f.level)
      ∧ (f.component = "" ∨ e.component = f.component) := by
  rw [matchesFilter]
  cases ho : e.operationName with
  | none =>
      simp [ho]
      tauto
  | some op =>
      simp [ho]
      tauto

/-- C3: the Filter Engine returns exactly the order-preserving subsequence of
entries satisfying the conjunction of the search, level and component
constraints (each vacuous when empty); the all-empty filter keeps every
entry, and adding a constraint to any dimension of a filter yields a subset
of its matches. -/
theorem filter_engine_conjunction (logs : List LogEntry) (f : LogFilter) :
    (filteredLogs logs f).Sublist logs
    ∧ (∀ e : LogEntry, e ∈ filteredLogs logs f ↔
        e ∈ logs ∧
          ((f.search = "" ∨ containsCI f.search e.message = true ∨
              ∃ op : String, e.operationName = some op ∧
                containsCI f.search op = true)
            ∧ (f.level = "" ∨ e.traceLevel = f.level)
            ∧ (f.component = "" ∨ e.component = f.component)))
    ∧ filteredLogs logs { search := "", level := "", component := "" } = logs
    ∧ ∀ g : LogFilter, (g.search = "" ∨ g.search = f.search) →
        (g.level = "" ∨ g.level = f.level) →
        (g.component = "" ∨ g.component = f.component) →
        ∀ e ∈ filteredLogs logs f, e ∈ filteredLogs logs g := by
  refine ⟨List.filter_sublist logs, ?_, ?_, ?_⟩
  · intro e
    rw [filteredLogs, List.mem_filter, matchesFilter_eq_true]
  · simp [filteredLogs, matchesFilter]
  · intro g hs hl hc e he
    rw [filteredLogs, List.mem_filter] at he
    obtain ⟨hin, hm⟩ := he
    rw [matchesFilter_eq_true] at hm
    rw [filteredLogs, List.mem_filter, matchesFilter_eq_true]
    refine ⟨hin, ?_, ?_, ?_⟩
    · rcases hs with h | h
      · exact Or.inl h
      · rw [h]; exact hm.1
    · rcases hl with h | h
      · exact Or.inl h
      · rw [h]; exact hm.2.1
    · rcases hc with h | h
      · exact Or.inl h
      · rw [h]; exact hm.2.2

/-- Witness for C3: a level-and-component filter's matches are among the
level-only filter's matches at a concrete dataset. -/
theorem filter_engine_conjunction_inst :
    { component := "Engine", traceLevel := "Error", eventTimestamp := "t1",
      message := "boom" : LogEntry } ∈
      filteredLogs
        [{ component := "Engine", traceLevel := "Error", eventTimestamp := "t1",
           message := "boom" }]
        { search := "", level := "Error", component := "" } :=
  (filter_engine_conjunction
      [{ component := "Engine", traceLevel := "Error", eventTimestamp := "t1",
         message := "boom" }]
      { search := "", level := "Error", component := "Engine" }).2.2.2
    { search := "", level := "Error", component := "" }
    (Or.inl rfl) (Or.inr rfl) (Or.inl rfl) _ (by decide)

/-! ## Uniqueness lists (LogTable.tsx, uniqueComponents / uniqueLevels) -/

/-- `Array.from(new Set(xs))`: first-occurrence deduplication. -/
def dedupFirst [DecidableEq α] (l : List α) : List α :=
  l.foldl (fun acc x => if x ∈ acc then acc else acc ++ [x]) []

/-- Lexicographic "less or equal" on character sequences by code point,
modelling the code-unit comparison of the JavaScript default sort. -/
def strLeChars : List Char → List Char → Bool
  | [], _ => true
  | _ :: _, [] => false
  | a :: as, b :: bs =>
      if a.toNat = b.toNat then strLeChars as bs
      else decide (a.toNat < b.toNat)

/-- The JavaScript default string comparison. -/
def strLe (a b : String) : Bool :=
  strLeChars a.toList b.toList

/-- JavaScript default `.sort()` on the deduplicated strings. -/
def sortStrings (l : List String) : List String :=
  sortLe strLe l

theorem strLeChars_total :
    ∀ as bs : List Char, strLeChars as bs = true ∨ strLeChars bs as = true := by
  intro as
  induction as with
  | nil => intro bs; exact Or.inl rfl
  | cons a as ih =>
      intro bs
      cases bs with
      | nil => exact Or.inr rfl
      | cons b bs =>
          by_cases h : a.toNat = b.toNat
          · rcases ih bs with hl | hr
            · exact Or.inl (by simp [strLeChars, h, hl])
            · exact Or.inr (by simp [strLeChars, h.symm, hr])
          · rcases Nat.lt_or_ge a.toNat b.toNat with hlt | hge
            · exact Or.inl (by simp [strLeChars, h, hlt])
            · have hgt : b.toNat < a.toNat := by omega
              have h' : ¬ b.toNat = a.toNat := by omega
              exact Or.inr (by simp [strLeChars, h', hgt])

theorem strLeChars_trans :
    ∀ as bs cs : List Char, strLeChars as bs = true → strLeChars bs cs = true →
      strLeChars as cs = true := by
  intro as
  induction as with
  | nil => intro bs cs h1 h2; rfl
  | cons a as ih =>
      intro bs cs h1 h2
      cases bs with
      | nil => simp [strLeChars] at h1
      | cons b bs =>
          cases cs with
          | nil => simp [strLeChars] at h2
          | cons c cs =>
              simp only [strLeChars] at h1 h2 ⊢
              by_cases hab : a.toNat = b.toNat
              · rw [if_pos hab] at h1
                by_cases hbc : b.toNat = c.toNat
                · rw [if_pos hbc] at h2
                  rw [if_pos (hab.trans hbc)]
                  exact ih bs cs h1 h2
                · rw [if_neg hbc] at h2
                  have h2' := of_decide_eq_true h2
                  have hac : ¬ a.toNat = c.toNat := by omega
                  rw [if_neg hac]
                  exact decide_eq_true (by omega)
              · rw [if_neg hab] at h1
                have h1' := of_decide_eq_true h1
                by_cases hbc : b.toNat = c.toNat
                · have hac : ¬ a.toNat = c.toNat := by omega
                  rw [if_neg hac]
                  exact decide_eq_true (by omega)
                · rw [if_neg hbc] at h2
                  have h2' := of_decide_eq_true h2
                  have hac : ¬ a.toNat = c.toNat := by omega
                  rw [if_neg hac]
                  exact decide_eq_true (by omega)

/-- `uniqueComponents` (LogTable.tsx), computed from the table's `logs` prop. -/
def uniqueComponents (logs : List LogEntry) : List String :=
  sortStrings (dedupFirst (logs.map (fun l => l.component)))

/-- `uniqueLevels` (LogTable.tsx), computed from the table's `logs` prop. -/
def uniqueLevels (logs : List LogEntry) : List String :=
  sortStrings (dedupFirst (logs.map (fun l => l.traceLevel)))

theorem dedupFirst_go [DecidableEq α] :
    ∀ l acc : List α, acc.Nodup →
      (l.foldl (fun acc x => if x ∈ acc then acc else acc ++ [x]) acc).Nodup ∧
        ∀ z : α,
          z ∈ l.foldl (fun acc x => if x ∈ acc then acc else acc ++ [x]) acc ↔
            z ∈ acc ∨ z ∈ l := by
  intro l
  induction l with
  | nil =>
      intro acc h
      exact ⟨h, fun z => by simp⟩
  | cons x xs ih =>
      intro acc hacc
      simp only [List.foldl_cons]
      by_cases hx : x ∈ acc
      · rw [if_pos hx]
        obtain ⟨hn, hm⟩ := ih acc hacc
        refine ⟨hn, fun z => ?_⟩
        rw [hm z, List.mem_cons]
        constructor
        · rintro (h | h)
          · exact Or.inl h
          · exact Or.inr (Or.inr h)
        · rintro (h | rfl | h)
          · exact Or.inl h
          · exact Or.inl hx
          · exact Or.inr h
      · rw [if_neg hx]
        have hacc' : (acc ++ [x]).Nodup := by
          simp [List.nodup_append, hacc, hx]
        obtain ⟨hn, hm⟩ := ih (acc ++ [x]) hacc'
        refine ⟨hn, fun z => ?_⟩
        rw [hm z, List.mem_append, List.mem_singleton, List.mem_cons]
        constructor
        · rintro ((h | h) | h)
          · exact Or.inl h
          · exact Or.inr (Or.inl h)
          · exact Or.inr (Or.inr h)
        · rintro (h | h | h)
          · exact Or.inl (Or.inl h)
          · exact Or.inl (Or.inr h)
          · exact Or.inr h

theorem nodup_dedupFirst [DecidableEq α] (l : List α) : (dedupFirst l).Nodup :=
  (dedupFirst_go l [] List.nodup_nil).1

theorem mem_dedupFirst [DecidableEq α] (z : α) (l : List α) :
    z ∈ dedupFirst l ↔ z ∈ l := by
  have h := (dedupFirst_go l [] List.nodup_nil).2 z
  rw [dedupFirst, h]
  simp

theorem pairwise_sortStrings (l : List String) :
    (sortStrings l).Pairwise (fun a b => strLe a b = true) :=
  pairwise_sortLe strLe
    (fun a b c hab hbc => strLeChars_trans a.toList b.toList c.toList hab hbc)
    (fun a b => strLeChars_total a.toList b.toList) l

theorem nodup_sortStrings (l : List String) (h : l.Nodup) :
    (sortStrings l).Nodup :=
  (perm_sortLe _ l).nodup_iff.mpr h

theorem mem_sortStrings (z : String) (l : List String) :
    z ∈ sortStrings l ↔ z ∈ l :=
  mem_sortLe _ z l

/-- C4 counterexample: with an active time range, the uniqueness lists are
computed from the time-range-restricted logs passed to the table, not from
the full dataset, so a component or level present only outside the range
disappears from the filter choices. -/
theorem unique_lists_full_dataset_cex :
    uniqueComponents
        (dashFiltered (fun s : String => (s.length : Int))
          [{ component := "A", traceLevel := "Info", eventTimestamp := "1",
             message := "m" },
           { component := "B", traceLevel := "Warning", eventTimestamp := "22",
             message := "m" }]
          (some { start := 0, stop := 1 })) ≠
      uniqueComponents
        [{ component := "A", traceLevel := "Info", eventTimestamp := "1",
           message := "m" },
         { component := "B", traceLevel := "Warning", eventTimestamp := "22",
           message := "m" }] ∧
    uniqueLevels
        (dashFiltered (fun s : String => (s.length : Int))
          [{ component := "A", traceLevel := "Info", eventTimestamp := "1",
             message := "m" },
           { component := "B", traceLevel := "Warning", eventTimestamp := "22",
             message := "m" }]
          (some { start := 0, stop := 1 })) ≠
      uniqueLevels
        [{ component := "A", traceLevel := "Info", eventTimestamp := "1",
           message := "m" },
         { component := "B", traceLevel := "Warning", eventTimestamp := "22",
           message := "m" }] := by
  constructor
  · decide
  · decide

/-- C4 (amended): the uniqueness lists are the sorted distinct component and
traceLevel values of the time-range-restricted logs passed to the table
(which equal the full dataset's exactly when no time range is active); they
do not depend on the LogFilter, so every entry visible under any LogFilter
has its component and level among the offered choices — but an active time
range may remove choices. -/
theorem unique_lists_table_input (dateMs : String → Int) (logs : List LogEntry)
    (tr : Option TimeRange) :
    (uniqueComponents (dashFiltered dateMs logs tr)).Pairwise
      (fun a b => strLe a b = true)
    ∧ (uniqueComponents (dashFiltered dateMs logs tr)).Nodup
    ∧ (∀ c : String, c ∈ uniqueComponents (dashFiltered dateMs logs tr) ↔
        ∃ e ∈ dashFiltered dateMs logs tr, e.component = c)
    ∧ (uniqueLevels (dashFiltered dateMs logs tr)).Pairwise
      (fun a b => strLe a b = true)
    ∧ (uniqueLevels (dashFiltered dateMs logs tr)).Nodup
    ∧ (∀ v : String, v ∈ uniqueLevels (dashFiltered dateMs logs tr) ↔
        ∃ e ∈ dashFiltered dateMs logs tr, e.traceLevel = v)
    ∧ (tr = none →
        uniqueComponents (dashFiltered dateMs logs tr) = uniqueComponents logs ∧
          uniqueLevels (dashFiltered dateMs logs tr) = uniqueLevels logs)
    ∧ ∀ f : LogFilter, ∀ e ∈ filteredLogs (dashFiltered dateMs logs tr) f,
        e.component ∈ uniqueComponents (dashFiltered dateMs logs tr) ∧
          e.traceLevel ∈ uniqueLevels (dashFiltered dateMs logs tr) := by
  refine ⟨pairwise_sortStrings _,
    nodup_sortStrings _ (nodup_dedupFirst _), ?_,
    pairwise_sortStrings _,
    nodup_sortStrings _ (nodup_dedupFirst _), ?_, ?_, ?_⟩
  · intro c
    rw [uniqueComponents, mem_sortStrings, mem_dedupFirst, List.mem_map]
  · intro v
    rw [uniqueLevels, mem_sortStrings, mem_dedupFirst, List.mem_map]
  · rintro rfl
    exact ⟨rfl, rfl⟩
  · intro f e he
    have hin : e ∈ dashFiltered dateMs logs tr :=
      (List.mem_filter.mp he).1
    constructor
    · rw [uniqueComponents, mem_sortStrings, mem_dedupFirst, List.mem_map]
      exact ⟨e, hin, rfl⟩
    · rw [uniqueLevels, mem_sortStrings, mem_dedupFirst, List.mem_map]
      exact ⟨e, hin, rfl⟩

/-- Witness for C4 at a concrete input: an entry surviving a component
filter has its level among the offered choices. -/
theorem unique_lists_table_input_inst :
    "Error" ∈
      uniqueLevels
        (dashFiltered (fun s : String => (s.length : Int))
          [{ component := "Engine", traceLevel := "Error",
             eventTimestamp := "t1", message := "m" }] none) :=
  ((unique_lists_table_input (fun s : String => (s.length : Int))
        [{ component := "Engine", traceLevel := "Error",
           eventTimestamp := "t1", message := "m" }] none).2.2.2.2.2.2.2
      { search := "", level := "", component := "Engine" }
      { component := "Engine", traceLevel := "Error",
        eventTimestamp := "t1", message := "m" } (by decide)).2

/-! ## Time-Bucket Aggregator (LogCharts.tsx, volumeData) -/

/-- Adaptive bucket width (LogCharts.tsx): duration from the first to the
last entry of the `logs` prop; under 5 minutes use 1 s buckets, under one
hour 10 s, otherwise 1 min.  Callers guard against the empty list, so the
`getD 0` defaults never fire. -/
def bucketSizeMs (dateMs : String → Int) (logs : List LogEntry) : Int :=
  let startTime := (logs.head?.map (fun l => dateMs l.eventTimestamp)).getD 0
  let endTime := (logs.getLast?.map (fun l => dateMs l.eventTimestamp)).getD 0
  let durationMs := endTime - startTime
  if durationMs < 300000 then 1000
  else if durationMs < 3600000 then 10000
  else 60000

/-- The width policy as the specification states it, as a function of the
total span D. -/
def widthPolicy (d : Int) : Int :=
  if d < 300000 then 1000
  else if d < 3600000 then 10000
  else 60000

/-- Least timestamp value of a dataset (0 when empty). -/
def minTsOf (dateMs : String → Int) (logs : List LogEntry) : Int :=
  match logs.map (fun l => dateMs l.eventTimestamp) with
  | [] => 0
  | t :: ts => ts.foldl min t

/-- Greatest timestamp value of a dataset (0 when empty). -/
def maxTsOf (dateMs : String → Int) (logs : List LogEntry) : Int :=
  match logs.map (fun l => dateMs l.eventTimestamp) with
  | [] => 0
  | t :: ts => ts.foldl max t

/-- `bucketKey = Math.floor(ts / bucketSizeMs) * bucketSizeMs`
(floor division, as JavaScript `Math.floor` on a real quotient). -/
def keyOf (dateMs : String → Int) (width : Int) (l : LogEntry) : Int :=
  (dateMs l.eventTimestamp).fdiv width * width

/-- `log.traceLevel === 'Error' || log.traceLevel === 'Critical'`. -/
def isErrLevel (l : LogEntry) : Bool :=
  l.traceLevel == "Error" || l.traceLevel == "Critical"

/-- One timeline bucket (the locale-formatted `time` label is
presentation-only and not modelled). -/
structure VolBucket where
  timestamp : Int
  endTime : Int
  count : Nat
  errors : Nat
  deriving DecidableEq

/-- `buckets[bucketKey].count++` and the conditional `errors++`. -/
def bumpBucket (isErr : Bool) (b : VolBucket) : VolBucket :=
  { b with count := b.count + 1, errors := b.errors + (if isErr then 1 else 0) }

/-- One iteration of the `logs.forEach` accumulation of `volumeData`: create
the entry's bucket on first sight, then increment its tallies.  The record
keyed by `bucketKey` is modelled as a list of buckets with distinct
timestamps, in insertion order. -/
def addLog (dateMs : String → Int) (width : Int) (m : List VolBucket)
    (l : LogEntry) : List VolBucket :=
  let k := keyOf dateMs width l
  if m.any (fun b => b.timestamp == k) then
    m.map (fun b => if b.timestamp == k then bumpBucket (isErrLevel l) b else b)
  else
    m ++ [{ timestamp := k, endTime := k + width, count := 1,
            errors := if isErrLevel l then 1 else 0 }]

/-- `volumeData` (LogCharts.tsx): empty input yields no buckets; otherwise
accumulate per-bucket tallies over the whole dataset and sort the buckets by
`timestamp` ascending. -/
def volumeData (dateMs : String → Int) (logs : List LogEntry) : List VolBucket :=
  if logs.length = 0 then []
  else
    sortLe (fun a b => decide (a.timestamp ≤ b.timestamp))
      (logs.foldl (addLog dateMs (bucketSizeMs dateMs logs)) [])

/-- Invariant of the `volumeData` accumulation: bucket timestamps are
distinct, each bucket's tallies count exactly the processed entries mapped
to it, each bucket was created by some processed entry, every processed
entry has its bucket, and the counts sum to the number processed. -/
def BInv (dateMs : String → Int) (width : Int) (processed : List LogEntry)
    (m : List VolBucket) : Prop :=
  (m.map (fun b => b.timestamp)).Nodup ∧
  (∀ b ∈ m,
      b.count = processed.countP (fun l => keyOf dateMs width l == b.timestamp) ∧
      b.errors = processed.countP
        (fun l => (keyOf dateMs width l == b.timestamp) && isErrLevel l) ∧
      b.endTime = b.timestamp + width ∧
      ∃ l ∈ processed, keyOf dateMs width l = b.timestamp) ∧
  (∀ l ∈ processed, ∃ b ∈ m, b.timestamp = keyOf dateMs width l) ∧
  (m.map (fun b => b.count)).sum = processed.length

theorem BInv_addLog (dateMs : String → Int) (width : Int)
    (processed : List LogEntry) (m : List VolBucket) (l : LogEntry)
    (h : BInv dateMs width processed m) :
    BInv dateMs width (processed ++ [l]) (addLog dateMs width m l) := by
  obtain ⟨hnd, hbk, hcov, hsum⟩ := h
  by_cases hex : m.any (fun b => b.timestamp == keyOf dateMs width l) = true
  · -- the entry's bucket already exists and is bumped
    simp only [addLog, if_pos hex]
    obtain ⟨b0, hb0m, hb0k⟩ := List.any_eq_true.mp hex
    rw [beq_iff_eq] at hb0k
    refine ⟨?_, ?_, ?_, ?_⟩
    · have hts :
          (m.map fun b =>
              if b.timestamp == keyOf dateMs width l then
                bumpBucket (isErrLevel l) b else b).map (fun b => b.timestamp) =
            m.map (fun b => b.timestamp) := by
        rw [List.map_map]
        apply List.map_congr_left
        intro b hb
        by_cases hb' : (b.timestamp == keyOf dateMs width l) = true
        · rw [Function.comp_apply, if_pos hb']
          rfl
        · rw [Function.comp_apply, if_neg hb']
      rw [hts]
      exact hnd
    · intro b' hb'
      rw [List.mem_map] at hb'
      obtain ⟨b, hbm, hbe⟩ := hb'
      obtain ⟨hc, he, hend, hw⟩ := hbk b hbm
      by_cases hb' : b.timestamp == keyOf dateMs width l
      · rw [if_pos hb'] at hbe
        rw [beq_iff_eq] at hb'
        subst hbe
        refine ⟨?_, ?_, ?_, ?_⟩
        · rw [bumpBucket]
          simp only [List.countP_append, hc]
          have : (keyOf dateMs width l == b.timestamp) = true :=
            beq_iff_eq.mpr hb'.symm
          simp [this]
        · rw [bumpBucket]
          simp only [List.countP_append, he]
          have : (keyOf dateMs width l == b.timestamp) = true :=
            beq_iff_eq.mpr hb'.symm
          simp only [List.countP_cons, List.countP_nil, this, Bool.true_and]
          by_cases herr : isErrLevel l = true
          · simp [herr]
          · simp [herr]
        · rw [bumpBucket]
          simpa using hend
        · exact ⟨l, by simp, by rw [bumpBucket]; simpa using hb'.symm⟩
      · rw [if_neg hb'] at hbe
        subst hbe
        refine ⟨?_, ?_, hend, ?_⟩
        · rw [hc, List.countP_append]
          have : (keyOf dateMs width l == b.timestamp) = false := by
            rw [beq_eq_false_iff_ne]
            intro hk
            exact hb' (beq_iff_eq.mpr hk.symm)
          simp [this]
        · rw [he, List.countP_append]
          have : (keyOf dateMs width l == b.timestamp) = false := by
            rw [beq_eq_false_iff_ne]
            intro hk
            exact hb' (beq_iff_eq.mpr hk.symm)
          simp [this]
        · obtain ⟨l', hl', hk'⟩ := hw
          exact ⟨l', List.mem_append_left _ hl', hk'⟩
    · intro l' hl'
      rw [List.mem_append] at hl'
      rcases hl' with hl' | hl'
      · obtain ⟨b, hbm, hbk'⟩ := hcov l' hl'
        by_cases hb' : b.timestamp == keyOf dateMs width l
        · exact ⟨bumpBucket (isErrLevel l) b,
            List.mem_map.mpr ⟨b, hbm, by rw [if_pos hb']⟩,
            by rw [bumpBucket]; simpa using hbk'⟩
        · exact ⟨b, List.mem_map.mpr ⟨b, hbm, by rw [if_neg hb']⟩, hbk'⟩
      · rw [List.mem_singleton] at hl'
        refine ⟨bumpBucket (isErrLevel l) b0,
          List.mem_map.mpr ⟨b0, hb0m, by rw [if_pos (beq_iff_eq.mpr hb0k)]⟩, ?_⟩
        rw [hl']
        simpa [bumpBucket] using hb0k
    · have hone : m.countP (fun b => b.timestamp == keyOf dateMs width l) = 1 := by
        have hcnt :
            m.countP (fun b => b.timestamp == keyOf dateMs width l) =
              List.count (keyOf dateMs width l) (m.map fun b => b.timestamp) := by
          rw [List.count, List.countP_map]
          rfl
        rw [hcnt]
        exact List.count_eq_one_of_mem hnd
          (List.mem_map.mpr ⟨b0, hb0m, hb0k⟩)
      have hsum' : ∀ ms : List VolBucket,
          ((ms.map fun b =>
              if b.timestamp == keyOf dateMs width l then
                bumpBucket (isErrLevel l) b else b).map (fun b => b.count)).sum =
            (ms.map (fun b => b.count)).sum +
              ms.countP (fun b => b.timestamp == keyOf dateMs width l) := by
        intro ms
        induction ms with
        | nil => simp
        | cons b ms ih =>
            simp only [List.map_cons, List.sum_cons, List.countP_cons, ih]
            by_cases hb : (b.timestamp == keyOf dateMs width l) = true
            · rw [if_pos hb, if_pos hb]
              simp only [bumpBucket]
              omega
            · rw [if_neg hb, if_neg hb]
              omega
      rw [hsum' m, hone, hsum]
      simp
  · -- first sight of this key: a new bucket is appended
    simp only [addLog, if_neg hex]
    have hnotin : keyOf dateMs width l ∉ m.map (fun b => b.timestamp) := by
      intro hk
      rw [List.mem_map] at hk
      obtain ⟨b, hbm, hbe⟩ := hk
      exact hex (List.any_eq_true.mpr ⟨b, hbm, beq_iff_eq.mpr hbe⟩)
    have hzero :
        processed.countP (fun l' => keyOf dateMs width l' == keyOf dateMs width l)
          = 0 := by
      rw [List.countP_eq_zero]
      intro l' hl' hk
      rw [beq_iff_eq] at hk
      obtain ⟨b, hbm, hbk'⟩ := hcov l' hl'
      exact hnotin (List.mem_map.mpr ⟨b, hbm, hbk'.trans hk⟩)
    refine ⟨?_, ?_, ?_, ?_⟩
    · rw [List.map_append]
      refine List.Nodup.append hnd (by simp) ?_
      simpa [List.disjoint_singleton] using hnotin
    · intro b' hb'
      rw [List.mem_append] at hb'
      rcases hb' with hb' | hb'
      · obtain ⟨hc, he, hend, hw⟩ := hbk b' hb'
        have hne : (keyOf dateMs width l == b'.timestamp) = false := by
          rw [beq_eq_false_iff_ne]
          intro hk
          exact hnotin (hk ▸ List.mem_map.mpr ⟨b', hb', rfl⟩)
        refine ⟨?_, ?_, hend, ?_⟩
        · rw [hc, List.countP_append]
          simp [hne]
        · rw [he, List.countP_append]
          simp [hne]
        · obtain ⟨l', hl', hk'⟩ := hw
          exact ⟨l', List.mem_append_left _ hl', hk'⟩
      · rw [List.mem_singleton] at hb'
        subst hb'
        refine ⟨?_, ?_, rfl, ⟨l, by simp, rfl⟩⟩
        · rw [List.countP_append, hzero, List.countP_cons]
          simp
        · have hz2 :
              processed.countP
                (fun l' => (keyOf dateMs width l' == keyOf dateMs width l) &&
                  isErrLevel l') = 0 := by
            rw [List.countP_eq_zero]
            intro l' hl' hk
            rw [Bool.and_eq_true] at hk
            have := List.countP_eq_zero.mp hzero l' hl'
            exact this hk.1
          rw [List.countP_append, hz2, List.countP_cons]
          simp
    · intro l' hl'
      rw [List.mem_append] at hl'
      rcases hl' with hl' | hl'
      · obtain ⟨b, hbm, hbk'⟩ := hcov l' hl'
        exact ⟨b, List.mem_append_left _ hbm, hbk'⟩
      · rw [List.mem_singleton] at hl'
        subst hl'
        exact ⟨_, List.mem_append_right _ (List.mem_singleton_self _), rfl⟩
    · rw [List.map_append, List.sum_append, hsum]
      simp

theorem BInv_foldl (dateMs : String → Int) (width : Int) :
    ∀ (rest processed : List LogEntry) (m : List VolBucket),
      BInv dateMs width processed m →
      BInv dateMs width (processed ++ rest)
        (rest.foldl (addLog dateMs width) m) := by
  intro rest
  induction rest with
  | nil =>
      intro processed m h
      simpa using h
  | cons l rest ih =>
      intro processed m h
      have h2 := ih (processed ++ [l]) (addLog dateMs width m l)
        (BInv_addLog dateMs width processed m l h)
      simpa [List.append_assoc] using h2

theorem BInv_nil (dateMs : String → Int) (width : Int) :
    BInv dateMs width [] [] := by
  refine ⟨by simp, ?_, ?_, by simp⟩
  · intro b hb
    cases hb
  · intro l hl
    cases hl

theorem BInv_volume (dateMs : String → Int) (logs : List LogEntry) :
    BInv dateMs (bucketSizeMs dateMs logs) logs
      (logs.foldl (addLog dateMs (bucketSizeMs dateMs logs)) []) := by
  have h := BInv_foldl dateMs (bucketSizeMs dateMs logs) logs [] []
    (BInv_nil dateMs (bucketSizeMs dateMs logs))
  simpa using h

theorem foldl_min_head (t : Int) (ts : List Int) (h : ∀ x ∈ ts, t ≤ x) :
    ts.foldl min t = t := by
  induction ts generalizing t with
  | nil => rfl
  | cons b r ih =>
      rw [List.foldl_cons, min_eq_left (h b (List.mem_cons_self b r))]
      exact ih t fun x hx => h x (List.mem_cons_of_mem b hx)

theorem getLast?_foldl_max (t : Int) (ts : List Int)
    (h : List.Pairwise (fun a b : Int => a ≤ b) (t :: ts)) :
    (t :: ts).getLast? = some (ts.foldl max t) := by
  induction ts generalizing t with
  | nil => rfl
  | cons b r ih =>
      rw [List.getLast?_cons_cons, List.foldl_cons]
      rw [List.pairwise_cons] at h
      obtain ⟨ht, hbr⟩ := h
      rw [max_eq_right (ht b (List.mem_cons_self b r))]
      exact ih b hbr

/-- C6: for a non-empty time-ordered dataset, the bucket width computed by
the aggregator is exactly the spec's policy on the total span
D = max(timestamp) − min(timestamp): 1 s below 5 min, 10 s below 1 h,
else 1 min. -/
theorem bucket_width_from_span (dateMs : String → Int) (logs : List LogEntry)
    (hne : logs ≠ [])
    (hs : List.Chain'
      (fun a b => dateMs a.eventTimestamp ≤ dateMs b.eventTimestamp) logs) :
    bucketSizeMs dateMs logs =
      widthPolicy (maxTsOf dateMs logs - minTsOf dateMs logs) := by
  cases logs with
  | nil => cases hne rfl
  | cons e rest =>
      have hpair : List.Pairwise (fun a b : Int => a ≤ b)
          ((e :: rest).map (fun l => dateMs l.eventTimestamp)) := by
        rw [List.pairwise_map]
        haveI : IsTrans LogEntry
            (fun a b => dateMs a.eventTimestamp ≤ dateMs b.eventTimestamp) :=
          ⟨fun a b c hab hbc => le_trans hab hbc⟩
        exact List.chain'_iff_pairwise.mp hs
      rw [List.map_cons] at hpair
      have hmin : minTsOf dateMs (e :: rest) = dateMs e.eventTimestamp := by
        simp only [minTsOf, List.map_cons]
        apply foldl_min_head
        intro x hx
        exact (List.pairwise_cons.mp hpair).1 x hx
      have hmax : (e :: rest).getLast?.map (fun l => dateMs l.eventTimestamp) =
          some (maxTsOf dateMs (e :: rest)) := by
        rw [← List.getLast?_map]
        rw [List.map_cons]
        simp only [maxTsOf, List.map_cons]
        exact getLast?_foldl_max _ _ hpair
      rw [bucketSizeMs, widthPolicy]
      simp only [List.head?_cons, hmax]
      rw [hmin]
      simp

/-- Witness for C6 at a concrete one-entry dataset. -/
theorem bucket_width_from_span_inst :
    bucketSizeMs (fun s : String => (s.length : Int))
        [{ component := "A", traceLevel := "Info", eventTimestamp := "t",
           message := "m" }] =
      widthPolicy
        (maxTsOf (fun s : String => (s.length : Int))
            [{ component := "A", traceLevel := "Info", eventTimestamp := "t",
               message := "m" }] -
          minTsOf (fun s : String => (s.length : Int))
            [{ component := "A", traceLevel := "Info", eventTimestamp := "t",
               message := "m" }]) :=
  bucket_width_from_span (fun s : String => (s.length : Int))
    [{ component := "A", traceLevel := "Info", eventTimestamp := "t",
       message := "m" }] (by decide) (by simp)

/-- C7: for every non-empty dataset, the bucket counts sum to the number of
entries, bucket timestamps are distinct, every emitted bucket contains at
least one entry and tallies exactly the entries whose key
`floor(ts / width) * width` equals its start (its `errors` tally counting
exactly those with traceLevel Error or Critical), and every entry's key
bucket is emitted — so every entry is counted in exactly one bucket. -/
theorem bucket_partition_totals (dateMs : String → Int) (logs : List LogEntry)
    (hne : logs ≠ []) :
    ((volumeData dateMs logs).map (fun b => b.count)).sum = logs.length
    ∧ ((volumeData dateMs logs).map (fun b => b.timestamp)).Nodup
    ∧ (∀ b ∈ volumeData dateMs logs,
        0 < b.count
        ∧ b.count = logs.countP
            (fun l => keyOf dateMs (bucketSizeMs dateMs logs) l == b.timestamp)
        ∧ b.errors = logs.countP
            (fun l => (keyOf dateMs (bucketSizeMs dateMs logs) l == b.timestamp)
              && isErrLevel l))
    ∧ ∀ l ∈ logs, ∃ b ∈ volumeData dateMs logs,
        b.timestamp = keyOf dateMs (bucketSizeMs dateMs logs) l := by
  obtain ⟨hnd, hbk, hcov, hsum⟩ := BInv_volume dateMs logs
  have hval : volumeData dateMs logs =
      sortLe (fun a b => decide (a.timestamp ≤ b.timestamp))
        (logs.foldl (addLog dateMs (bucketSizeMs dateMs logs)) []) := by
    rw [volumeData, if_neg (by simpa [List.length_eq_zero] using hne)]
  have hperm := perm_sortLe (fun a b : VolBucket => decide (a.timestamp ≤ b.timestamp))
    (logs.foldl (addLog dateMs (bucketSizeMs dateMs logs)) [])
  refine ⟨?_, ?_, ?_, ?_⟩
  · rw [hval, (hperm.map (fun b => b.count)).sum_eq, hsum]
  · rw [hval]
    exact ((hperm.map (fun b => b.timestamp)).nodup_iff).mpr hnd
  · intro b hb
    rw [hval, hperm.mem_iff] at hb
    obtain ⟨hc, he, -, hw⟩ := hbk b hb
    refine ⟨?_, hc, he⟩
    rw [hc, List.countP_pos_iff]
    obtain ⟨l, hl, hk⟩ := hw
    exact ⟨l, hl, beq_iff_eq.mpr hk⟩
  · intro l hl
    obtain ⟨b, hbm, hbk'⟩ := hcov l hl
    exact ⟨b, by rw [hval, hperm.mem_iff]; exact hbm, hbk'⟩

/-- Witness for C7 at a concrete two-entry dataset. -/
theorem bucket_partition_totals_inst :
    ((volumeData (fun s : String => (s.length : Int))
          [{ component := "A", traceLevel := "Error", eventTimestamp := "t1",
             message := "m1" },
           { component := "B", traceLevel := "Info", eventTimestamp := "t2",
             message := "m2" }]).map (fun b => b.count)).sum =
      ([{ component := "A", traceLevel := "Error", eventTimestamp := "t1",
          message := "m1" },
        { component := "B", traceLevel := "Info", eventTimestamp := "t2",
          message := "m2" }] : List LogEntry).length :=
  (bucket_partition_totals (fun s : String => (s.length : Int))
      [{ component := "A", traceLevel := "Error", eventTimestamp := "t1",
         message := "m1" },
       { component := "B", traceLevel := "Info", eventTimestamp := "t2",
         message := "m2" }] (by decide)).1

/-- C10: in every emitted bucket the Error/Critical tally never exceeds the
total tally (both tallies are naturals, so 0 ≤ errorCount holds by type). -/
theorem bucket_errors_le_count (dateMs : String → Int) (logs : List LogEntry)
    (b : VolBucket) (hb : b ∈ volumeData dateMs logs) :
    b.errors ≤ b.count := by
  by_cases hne : logs.length = 0
  · rw [volumeData, if_pos hne] at hb
    cases hb
  · rw [volumeData, if_neg hne,
      (perm_sortLe (fun a b : VolBucket => decide (a.timestamp ≤ b.timestamp))
        _).mem_iff] at hb
    obtain ⟨-, hbk, -, -⟩ := BInv_volume dateMs logs
    obtain ⟨hc, he, -, -⟩ := hbk b hb
    rw [hc, he]
    apply List.countP_mono_left
    intro l hl hp
    rw [Bool.and_eq_true] at hp
    exact hp.1

/-- Witness for C10 at a concrete bucket produced by one Error entry. -/
theorem bucket_errors_le_count_inst :
    VolBucket.errors { timestamp := 0, endTime := 1000, count := 1, errors := 1 } ≤
      VolBucket.count { timestamp := 0, endTime := 1000, count := 1, errors := 1 } :=
  bucket_errors_le_count (fun s : String => (s.length : Int))
    [{ component := "A", traceLevel := "Error", eventTimestamp := "t",
       message := "m" }]
    { timestamp := 0, endTime := 1000, count := 1, errors := 1 } (by decide)

/-! ## Metric Downsampler (LogCharts.tsx, perfData) -/

/-- One plotted performance point (the locale-formatted `time` label is
presentation-only and not modelled). -/
structure MetricPoint where
  timestamp : Int
  cpu : Int
  memory : Int
  processCpu : Int
  queueLength : Int
  deriving DecidableEq

/-- The selection predicate of `perfData`: entries carrying `perfCounters`
or either of the two RpaAgent machine-info metrics (`!== undefined`, so a
present zero still selects). -/
def hasPerf (l : LogEntry) : Bool :=
  (l.eventData.bind (fun ed => ed.perfCounters)).isSome ||
    ((l.eventData.bind (fun ed => ed.machineInfo)).bind
      (fun mi => mi.physicalFreeMemoryMB)).isSome ||
    ((l.eventData.bind (fun ed => ed.machineInfo)).bind
      (fun mi => mi.cpuLoad)).isSome

/-- The per-entry metric projection of `perfData`: prefer the `perfCounters`
shape, else fall back to the RpaAgent shape; missing numerics default to 0,
and queue length is absent from the fallback shape. -/
def toPoint (dateMs : String → Int) (l : LogEntry) : MetricPoint :=
  match l.eventData.bind (fun ed => ed.perfCounters) with
  | some p =>
      { timestamp := dateMs l.eventTimestamp
        cpu := p.totalCpuUsagePercent.getD 0
        memory := p.availableMemoryMB.getD 0
        processCpu := p.processCpuUsagePercent.getD 0
        queueLength := p.processorQueueLength.getD 0 }
  | none =>
      { timestamp := dateMs l.eventTimestamp
        cpu := ((l.eventData.bind (fun ed => ed.machineInfo)).bind
          (fun mi => mi.cpuLoad)).getD 0
        memory := ((l.eventData.bind (fun ed => ed.machineInfo)).bind
          (fun mi => mi.physicalFreeMemoryMB)).getD 0
        processCpu := ((l.eventData.bind (fun ed => ed.processInfo)).bind
          (fun pin => pin.cpuLoad)).getD 0
        queueLength := 0 }

/-- `.filter((_, i) => i % step === 0)`: keep the positions whose index is
divisible by the stride. -/
def strideIdx (step : Nat) (l : List α) : List α :=
  (l.enum.filter (fun p => p.1 % step == 0)).map Prod.snd

/-- `perfData` (LogCharts.tsx): select the metric-bearing entries, keep every
`Math.ceil(N / 500)`-th of them, and project each kept entry. -/
def perfData (dateMs : String → Int) (effectiveLogs : List LogEntry) :
    List MetricPoint :=
  let perfLogs := effectiveLogs.filter hasPerf
  if perfLogs.length = 0 then []
  else
    let step := (perfLogs.length + 499) / 500
    (strideIdx step perfLogs).map (toPoint dateMs)

theorem length_strideIdx (step : Nat) (l : List α) :
    (strideIdx step l).length =
      (List.range l.length).countP (fun i => i % step == 0) := by
  rw [strideIdx, List.length_map, ← List.countP_eq_length_filter,
    ← List.enum_map_fst l, List.countP_map]
  rfl

theorem countP_mod_range (s : Nat) (hs : 0 < s) :
    ∀ n : Nat, (List.range n).countP (fun i => i % s == 0) = (n + s - 1) / s := by
  intro n
  induction n with
  | zero =>
      have h : s - 1 < s := by omega
      simp [Nat.div_eq_of_lt h]
  | succ n ih =>
      rw [List.range_succ, List.countP_append, ih, List.countP_cons]
      have harith : n + 1 + s - 1 = (n + s - 1) + 1 := by omega
      rw [harith, Nat.succ_div]
      have h2 : n + s - 1 + 1 = n + s := by omega
      have hdvd : (s ∣ n + s - 1 + 1) ↔ s ∣ n := by
        rw [h2]
        exact Nat.dvd_add_self_right
      by_cases hd : s ∣ n
      · have h1 : n % s = 0 := Nat.dvd_iff_mod_eq_zero.mp hd
        simp [hdvd, hd, h1]
      · have h1 : ¬ n % s = 0 := fun h => hd (Nat.dvd_iff_mod_eq_zero.mpr h)
        simp [hdvd, hd, h1]

theorem strideIdx_sublist (step : Nat) (l : List α) :
    (strideIdx step l).Sublist l := by
  have h2 := (List.filter_sublist (p := fun p : Nat × α => p.1 % step == 0)
    l.enum).map Prod.snd
  rw [List.enum_map_snd] at h2
  exact h2

theorem strideIdx_head (step : Nat) (x : α) (l : List α) :
    (strideIdx step (x :: l)).head? = some x := by
  rw [strideIdx, List.enum_cons, List.filter_cons]
  simp

/-- C8: the downsampler keeps exactly the metric-bearing entries whose index
in the selected subset is divisible by ⌈N/500⌉ — so its output has at most
500 points, the kept entries form an order-preserving subsequence of the
input, and the first selected entry is always kept. -/
theorem downsample_bound_subsequence (dateMs : String → Int)
    (logs : List LogEntry) :
    (perfData dateMs logs).length ≤ 500
    ∧ (strideIdx (((logs.filter hasPerf).length + 499) / 500)
        (logs.filter hasPerf)).Sublist logs
    ∧ (logs.filter hasPerf ≠ [] →
        (strideIdx (((logs.filter hasPerf).length + 499) / 500)
            (logs.filter hasPerf)).head? = (logs.filter hasPerf).head?
        ∧ perfData dateMs logs =
            (strideIdx (((logs.filter hasPerf).length + 499) / 500)
              (logs.filter hasPerf)).map (toPoint dateMs)) := by
  refine ⟨?_, (strideIdx_sublist _ _).trans (List.filter_sublist _), ?_⟩
  · by_cases h0 : (logs.filter hasPerf).length = 0
    · simp [perfData, h0]
    · have hstep : 0 < ((logs.filter hasPerf).length + 499) / 500 := by
        have h5 : (500 : Nat) ≤ (logs.filter hasPerf).length + 499 := by omega
        calc (1 : Nat) = 500 / 500 := by norm_num
          _ ≤ ((logs.filter hasPerf).length + 499) / 500 :=
            Nat.div_le_div_right h5
      have hlen : (perfData dateMs logs).length =
          ((logs.filter hasPerf).length +
              ((logs.filter hasPerf).length + 499) / 500 - 1) /
            (((logs.filter hasPerf).length + 499) / 500) := by
        simp only [perfData]
        rw [if_neg h0, List.length_map, length_strideIdx,
          countP_mod_range _ hstep]
      rw [hlen]
      have hmod := Nat.div_add_mod ((logs.filter hasPerf).length + 499) 500
      have hlt : ((logs.filter hasPerf).length + 499) % 500 < 500 :=
        Nat.mod_lt _ (by norm_num)
      have hNs : (logs.filter hasPerf).length ≤
          500 * (((logs.filter hasPerf).length + 499) / 500) := by omega
      have hbound : ((logs.filter hasPerf).length +
            ((logs.filter hasPerf).length + 499) / 500 - 1) /
          (((logs.filter hasPerf).length + 499) / 500) < 501 := by
        rw [Nat.div_lt_iff_lt_mul hstep]
        omega
      omega
  · intro hne
    constructor
    · cases hfl : logs.filter hasPerf with
      | nil => exact absurd hfl hne
      | cons x l' => rw [strideIdx_head, List.head?_cons]
    · have h0 : ¬ (logs.filter hasPerf).length = 0 := by
        simpa [List.length_eq_zero] using hne
      simp only [perfData]
      rw [if_neg h0]

/-- A sample metric-bearing entry used to instantiate C8. -/
def perfEntryDemo : LogEntry where
  component := "A"
  traceLevel := "Info"
  eventTimestamp := "t"
  message := "m"
  eventData := some { perfCounters := some { totalCpuUsagePercent := some 10 } }

/-- Witness for C8: with one metric-bearing entry, the first selected entry
is kept. -/
theorem downsample_bound_subsequence_inst :
    (strideIdx ((([perfEntryDemo].filter hasPerf).length + 499) / 500)
        ([perfEntryDemo].filter hasPerf)).head? =
      ([perfEntryDemo].filter hasPerf).head? :=
  ((downsample_bound_subsequence (fun s : String => (s.length : Int))
      [perfEntryDemo]).2.2 (by decide)).1

end PadLogViewer
